import Mathlib

set_option autoImplicit false

/-!
Verification of the UTXO-index core (`src/callbacks/common.rs`):
`remove_unspents` (Spend-Remover) and `insert_unspents` (Output-Registrar)
acting on a shared map from serialized outpoint keys to unspent entries.

The map `HashMap<Vec<u8>, UnspentValue>` is embedded as an association list
with unique keys; `containsKey`, `findEntry`, `removeKey`, `insertEntry`
mirror `contains_key`, `get`, `remove`, `insert` of the Rust `HashMap`
(keys unique, insert replaces, remove deletes the entry if present).
-/

/-- A serialized outpoint key (the `Vec<u8>` map key); bytes as `Nat`. -/
abbrev Key := List Nat

/-- `UnspentValue` from `src/callbacks/common.rs`: block height, value and
address of a live unspent output. -/
structure UnspentValue where
  block_height : Nat
  value : Nat
  address : String
  deriving DecidableEq, Repr

/-- The UTXO index: embedding of `HashMap<Vec<u8>, UnspentValue>` as an
association list (unique keys maintained by the operations). -/
abbrev UnspentIndex := List (Key × UnspentValue)

/-- `HashMap::contains_key`. -/
def containsKey : UnspentIndex → Key → Bool
  | [], _ => false
  | p :: rest, k => if p.1 = k then true else containsKey rest k

/-- `HashMap::get`: the value stored under `k`, if any. -/
def findEntry : UnspentIndex → Key → Option UnspentValue
  | [], _ => none
  | p :: rest, k => if p.1 = k then some p.2 else findEntry rest k

/-- `HashMap::remove`: delete the entry stored under `k`, if any. -/
def removeKey : UnspentIndex → Key → UnspentIndex
  | [], _ => []
  | p :: rest, k => if p.1 = k then rest else p :: removeKey rest k

/-- `HashMap::insert`: store `v` under `k`, replacing any previous entry. -/
def insertEntry (m : UnspentIndex) (k : Key) (v : UnspentValue) : UnspentIndex :=
  (k, v) :: removeKey m k

/-- The representation invariant of the `HashMap` embedding: keys are
pairwise distinct. -/
def KeysNodup (m : UnspentIndex) : Prop :=
  (m.map Prod.fst).Nodup

/-- Modelled from the spec: an Outpoint identifies a specific output of a
specific transaction by (32-byte transaction hash, 4-byte output index).
The struct `TxOutpoint` lives outside `src/`. -/
structure TxOutpoint where
  txid : List Nat
  index : Nat
  deriving DecidableEq, Repr

/-- Modelled from the spec: `TxOutpoint::new(hash, index)`. -/
def TxOutpoint.new (hash : List Nat) (index : Nat) : TxOutpoint :=
  ⟨hash, index⟩

/-- Modelled from the spec: `TxOutpoint::to_bytes` serializes an outpoint to
the fixed-width map key, hash bytes followed by the 4-byte little-endian
output index (a `u32`, hence reduced mod 2^32); `ToRaw` lives outside
`src/`. -/
def TxOutpoint.to_bytes (o : TxOutpoint) : Key :=
  o.txid ++ [o.index % 256, o.index / 256 % 256,
             o.index / 65536 % 256, o.index / 16777216 % 256]

/-- Modelled from the spec: the decoded output-script, carrying the optional
resolved address and the raw script pattern for diagnostics; lives outside
`src/`. -/
structure EvaluatedScript where
  address : Option String
  pattern : String
  deriving DecidableEq, Repr

/-- Modelled from the spec: the raw output, carrying the value; outside
`src/`. -/
structure TxOut where
  value : Nat
  deriving DecidableEq, Repr

/-- Modelled from the spec: a decoded transaction output (`output.out.value`,
`output.script.address`, `output.script.pattern`); outside `src/`. -/
structure EvaluatedTxOut where
  script : EvaluatedScript
  out : TxOut
  deriving DecidableEq, Repr

/-- Modelled from the spec: a decoded transaction input carrying its
referenced outpoint (`input.outpoint`); outside `src/`. -/
structure TxInput where
  outpoint : TxOutpoint
  deriving DecidableEq, Repr

/-- Modelled from the spec: a decoded transaction with its declared input
count (`tx.value.in_count.value`, the `VarUint` value as a `Nat`), ordered
input list and ordered output list; `Tx` lives outside `src/`. -/
structure Tx where
  in_count : Nat
  inputs : List TxInput
  outputs : List EvaluatedTxOut
  deriving DecidableEq, Repr

/-- Modelled from the spec: `Hashed<T>` pairs a decoded value with its
32-byte hash (`tx.hash`, `tx.value`); outside `src/`. -/
structure Hashed (α : Type) where
  hash : List Nat
  value : α
  deriving DecidableEq, Repr

/-- The loop body of `remove_unspents`: for each input, derive the key and
remove the entry if the key is present. -/
def removeLoop : List TxInput → UnspentIndex → UnspentIndex
  | [], unspents => unspents
  | input :: rest, unspents =>
      removeLoop rest
        (if containsKey unspents input.outpoint.to_bytes then
          removeKey unspents input.outpoint.to_bytes
        else unspents)

/-- `remove_unspents` from `src/callbacks/common.rs`: iterate over the
transaction inputs removing spent outputs from the map, and return the
declared input count `tx.value.in_count.value`. The pair is
(returned count, final map). -/
def remove_unspents (tx : Hashed Tx) (unspents : UnspentIndex) :
    Nat × UnspentIndex :=
  (tx.value.in_count, removeLoop tx.value.inputs unspents)

/-- The loop body of `insert_unspents`, with the running output position `i`
(`enumerate`): outputs whose script resolved to an address are inserted
under `TxOutpoint::new(tx.hash, i).to_bytes()` and counted; the rest are
skipped. The pair is (count of outputs registered, final map). -/
def insertLoop (hash : List Nat) (block_height : Nat) :
    Nat → List EvaluatedTxOut → UnspentIndex → Nat × UnspentIndex
  | _, [], unspents => (0, unspents)
  | i, output :: rest, unspents =>
    match output.script.address with
    | some address =>
        let r := insertLoop hash block_height (i + 1) rest
          (insertEntry unspents (TxOutpoint.new hash i).to_bytes
            ⟨block_height, output.out.value, address⟩)
        (r.1 + 1, r.2)
    | none => insertLoop hash block_height (i + 1) rest unspents

/-- `insert_unspents` from `src/callbacks/common.rs`: iterate over the
transaction outputs adding valid unspents to the map, and return the number
of valid outputs. -/
def insert_unspents (tx : Hashed Tx) (block_height : Nat)
    (unspents : UnspentIndex) : Nat × UnspentIndex :=
  insertLoop tx.hash block_height 0 tx.value.outputs unspents

/-- Variant of the removal loop written from the claim: unconditional
`remove` for each input key, without the `contains_key` guard. -/
def removeLoopU : List TxInput → UnspentIndex → UnspentIndex
  | [], unspents => unspents
  | input :: rest, unspents =>
      removeLoopU rest (removeKey unspents input.outpoint.to_bytes)

/-- Variant of `remove_unspents` written from the claim: the guarded
removal replaced by an unconditional `remove`. -/
def remove_unspents_unconditional (tx : Hashed Tx) (unspents : UnspentIndex) :
    Nat × UnspentIndex :=
  (tx.value.in_count, removeLoopU tx.value.inputs unspents)

/-- The keys referenced by the inputs of a transaction, in input order. -/
def spentKeysOf (tx : Hashed Tx) : List Key :=
  tx.value.inputs.map (fun input => input.outpoint.to_bytes)

/-- The keys registered by the resolving outputs of a transaction, starting
the position count at `i`. -/
def regKeysFrom (hash : List Nat) : Nat → List EvaluatedTxOut → List Key
  | _, [] => []
  | i, output :: rest =>
    match output.script.address with
    | some _ => (TxOutpoint.new hash i).to_bytes :: regKeysFrom hash (i + 1) rest
    | none => regKeysFrom hash (i + 1) rest

/-- The keys registered by the resolving outputs of a transaction. -/
def regKeysOf (tx : Hashed Tx) : List Key :=
  regKeysFrom tx.hash 0 tx.value.outputs

/-- One replay step: the Spend-Remover runs first, then the
Output-Registrar, on the same transaction against the same shared index. -/
def stepTx (unspents : UnspentIndex) (p : Hashed Tx × Nat) : UnspentIndex :=
  (insert_unspents p.1 p.2 (remove_unspents p.1 unspents).2).2

/-- Replay of a list of (transaction, block height) pairs in ledger order,
starting from the empty index. -/
def replay (txs : List (Hashed Tx × Nat)) : UnspentIndex :=
  txs.foldl stepTx []

/-- Ledger order: no transaction's input references an outpoint key that is
registered by the same transaction or by a later transaction of the list
(spends point strictly backwards; dangling references outside the list are
allowed). -/
def ValidLedger (txs : List (Hashed Tx × Nat)) : Prop :=
  List.Pairwise
    (fun a b => ∀ k ∈ spentKeysOf a.1, k ∉ regKeysOf b.1) txs ∧
  ∀ p ∈ txs, ∀ k ∈ spentKeysOf p.1, k ∉ regKeysOf p.1

instance (txs : List (Hashed Tx × Nat)) : Decidable (ValidLedger txs) := by
  unfold ValidLedger
  infer_instance

/-! ### Concrete demonstration data

A small concrete ledger mirroring the scenario of `tests::test_callback`:
one transaction paying 5.56 BTC to the first address, then a transaction
spending that output and paying 90.7 BTC to the second address. -/

/-- A concrete 32-byte transaction hash. -/
def demoHash1 : List Nat := List.replicate 32 1

/-- A second, distinct concrete 32-byte transaction hash. -/
def demoHash2 : List Nat := List.replicate 32 2

/-- A concrete 32-byte hash outside the tracked window (dangling spends). -/
def demoHash9 : List Nat := List.replicate 32 9

/-- The first test output: 5.56 BTC to a resolved P2PKH address. -/
def demoOut1 : EvaluatedTxOut :=
  ⟨⟨some "1JqDybm2nWTENrHvMyafbSXXtTk5Uv5QAn", "Pay2PublicKeyHash"⟩,
    ⟨556000000⟩⟩

/-- The second test output: 90.7 BTC to a resolved P2PKH address. -/
def demoOut2 : EvaluatedTxOut :=
  ⟨⟨some "1EYXXHs5gV4pc7QAddmDj5z7m14QPHGvWL", "Pay2PublicKeyHash"⟩,
    ⟨9070000000⟩⟩

/-- An output whose script does not resolve to an address. -/
def demoOutNone : EvaluatedTxOut := ⟨⟨none, "DataOutput"⟩, ⟨0⟩⟩

/-- First demo transaction: spends an outpoint outside the window and
creates one resolving output and one non-resolving output. -/
def demoTx1 : Hashed Tx :=
  ⟨demoHash1, ⟨1, [⟨⟨demoHash9, 0⟩⟩], [demoOut1, demoOutNone]⟩⟩

/-- Second demo transaction: spends output 0 of the first transaction and
creates one resolving output. -/
def demoTx2 : Hashed Tx :=
  ⟨demoHash2, ⟨1, [⟨⟨demoHash1, 0⟩⟩], [demoOut2]⟩⟩

/-- The demo ledger: the two transactions in ledger order. -/
def demoLedger : List (Hashed Tx × Nat) :=
  [(demoTx1, 100000), (demoTx2, 105001)]

/-- The outpoint key of output 0 of the first demo transaction. -/
def demoKey1 : Key := (TxOutpoint.new demoHash1 0).to_bytes

/-- The entry registered for output 0 of the first demo transaction. -/
def demoEntry : UnspentValue :=
  ⟨100000, 556000000, "1JqDybm2nWTENrHvMyafbSXXtTk5Uv5QAn"⟩

/-- A one-entry index holding that entry. -/
def demoMap : UnspentIndex := [(demoKey1, demoEntry)]

/-- An outpoint key unrelated to the demo transactions. -/
def demoKeyOther : Key := (TxOutpoint.new demoHash9 5).to_bytes

/-! ### Basic lemmas about the map operations -/

theorem containsKey_eq_false_iff (m : UnspentIndex) (k : Key) :
    containsKey m k = false ↔ findEntry m k = none := by
  induction m with
  | nil => simp [containsKey, findEntry]
  | cons p rest ih =>
    by_cases h : p.1 = k <;> simp [containsKey, findEntry, h, ih]

theorem containsKey_eq_true_iff_mem (m : UnspentIndex) (k : Key) :
    containsKey m k = true ↔ k ∈ m.map Prod.fst := by
  induction m with
  | nil => simp [containsKey]
  | cons p rest ih =>
    rw [containsKey, List.map_cons, List.mem_cons]
    by_cases h : p.1 = k
    · rw [if_pos h]
      simp [← h]
    · rw [if_neg h, ih]
      constructor
      · exact Or.inr
      · rintro (hh | hh)
        · exact absurd hh.symm h
        · exact hh

theorem findEntry_removeKey_ne (m : UnspentIndex) (k k' : Key) (h : k' ≠ k) :
    findEntry (removeKey m k) k' = findEntry m k' := by
  induction m with
  | nil => rfl
  | cons p rest ih =>
    by_cases hp : p.1 = k
    · have hpk : ¬p.1 = k' := by rw [hp]; exact fun hh => h hh.symm
      simp only [removeKey, if_pos hp, findEntry, if_neg hpk]
    · simp only [removeKey, if_neg hp, findEntry]
      by_cases hp' : p.1 = k'
      · rw [if_pos hp', if_pos hp']
      · rw [if_neg hp', if_neg hp', ih]

theorem containsKey_removeKey_ne (m : UnspentIndex) (k k' : Key) (h : k' ≠ k) :
    containsKey (removeKey m k) k' = containsKey m k' := by
  induction m with
  | nil => rfl
  | cons p rest ih =>
    by_cases hp : p.1 = k
    · have hpk : ¬p.1 = k' := by rw [hp]; exact fun hh => h hh.symm
      simp only [removeKey, if_pos hp, containsKey, if_neg hpk]
    · simp only [removeKey, if_neg hp, containsKey]
      by_cases hp' : p.1 = k'
      · rw [if_pos hp', if_pos hp']
      · rw [if_neg hp', if_neg hp', ih]

theorem containsKey_removeKey_imp (m : UnspentIndex) (k k' : Key)
    (h : containsKey (removeKey m k) k' = true) : containsKey m k' = true := by
  induction m with
  | nil => exact h
  | cons p rest ih =>
    by_cases hp : p.1 = k
    · simp only [removeKey, if_pos hp] at h
      by_cases hp' : p.1 = k' <;> simp [containsKey, hp', h]
    · simp only [removeKey, if_neg hp] at h
      by_cases hp' : p.1 = k'
      · simp [containsKey, hp']
      · simp only [containsKey, if_neg hp'] at h ⊢
        exact ih h

theorem removeKey_of_not_contains (m : UnspentIndex) (k : Key)
    (h : containsKey m k = false) : removeKey m k = m := by
  induction m with
  | nil => rfl
  | cons p rest ih =>
    by_cases hp : p.1 = k
    · simp [containsKey, hp] at h
    · simp only [containsKey, if_neg hp] at h
      simp [removeKey, hp, ih h]

theorem KeysNodup_removeKey (m : UnspentIndex) (k : Key) (h : KeysNodup m) :
    KeysNodup (removeKey m k) := by
  induction m with
  | nil => exact h
  | cons p rest ih =>
    rw [KeysNodup, List.map_cons, List.nodup_cons] at h
    by_cases hp : p.1 = k
    · simpa [removeKey, hp, KeysNodup] using h.2
    · have h1 : KeysNodup (removeKey rest k) := ih h.2
      rw [KeysNodup, removeKey, if_neg hp, List.map_cons, List.nodup_cons]
      refine ⟨fun hmem => h.1 ?_, h1⟩
      have := containsKey_removeKey_imp rest k p.1
        ((containsKey_eq_true_iff_mem _ _).mpr hmem)
      exact (containsKey_eq_true_iff_mem _ _).mp this

theorem containsKey_removeKey_self (m : UnspentIndex) (k : Key)
    (h : KeysNodup m) : containsKey (removeKey m k) k = false := by
  induction m with
  | nil => rfl
  | cons p rest ih =>
    rw [KeysNodup, List.map_cons, List.nodup_cons] at h
    by_cases hp : p.1 = k
    · rw [removeKey, if_pos hp]
      rw [Bool.eq_false_iff]
      intro hc
      exact h.1 (hp ▸ (containsKey_eq_true_iff_mem _ _).mp hc)
    · rw [removeKey, if_neg hp, containsKey, if_neg hp]
      exact ih h.2

theorem KeysNodup_insertEntry (m : UnspentIndex) (k : Key) (v : UnspentValue)
    (h : KeysNodup m) : KeysNodup (insertEntry m k v) := by
  rw [insertEntry, KeysNodup, List.map_cons, List.nodup_cons]
  refine ⟨fun hmem => ?_, KeysNodup_removeKey m k h⟩
  have := (containsKey_eq_true_iff_mem _ _).mpr hmem
  rw [containsKey_removeKey_self m k h] at this
  exact Bool.false_ne_true this

theorem findEntry_insertEntry_self (m : UnspentIndex) (k : Key)
    (v : UnspentValue) : findEntry (insertEntry m k v) k = some v := by
  simp [insertEntry, findEntry]

theorem findEntry_insertEntry_ne (m : UnspentIndex) (k k' : Key)
    (v : UnspentValue) (h : k' ≠ k) :
    findEntry (insertEntry m k v) k' = findEntry m k' := by
  rw [insertEntry, findEntry, if_neg (fun hh => h hh.symm)]
  exact findEntry_removeKey_ne m k k' h

theorem containsKey_insertEntry_iff (m : UnspentIndex) (k k' : Key)
    (v : UnspentValue) :
    containsKey (insertEntry m k v) k' = true ↔
      k' = k ∨ containsKey m k' = true := by
  by_cases h : k' = k
  · simp [insertEntry, containsKey, h]
  · rw [insertEntry, containsKey, if_neg (fun hh => h hh.symm),
      containsKey_removeKey_ne m k k' h]
    simp [h]

theorem length_removeKey_le (m : UnspentIndex) (k : Key) :
    (removeKey m k).length ≤ m.length := by
  induction m with
  | nil => exact Nat.le_refl 0
  | cons p rest ih =>
    by_cases hp : p.1 = k <;> simp [removeKey, hp] <;> omega

theorem length_le_length_removeKey_succ (m : UnspentIndex) (k : Key) :
    m.length ≤ (removeKey m k).length + 1 := by
  induction m with
  | nil => exact Nat.zero_le 1
  | cons p rest ih =>
    by_cases hp : p.1 = k <;> simp [removeKey, hp] <;> omega

theorem length_insertEntry_of_not_contains (m : UnspentIndex) (k : Key)
    (v : UnspentValue) (h : containsKey m k = false) :
    (insertEntry m k v).length = m.length + 1 := by
  rw [insertEntry, List.length_cons, removeKey_of_not_contains m k h]

/-! ### Lemmas about the removal loop -/

theorem containsKey_removeKey_of_false (m : UnspentIndex) (k k' : Key)
    (h : containsKey m k' = false) :
    containsKey (removeKey m k) k' = false := by
  cases hc : containsKey (removeKey m k) k' with
  | false => rfl
  | true => rw [containsKey_removeKey_imp m k k' hc] at h; exact h

theorem removeLoop_eq_removeLoopU (l : List TxInput) (m : UnspentIndex) :
    removeLoop l m = removeLoopU l m := by
  induction l generalizing m with
  | nil => rfl
  | cons input rest ih =>
    rw [removeLoop, removeLoopU]
    by_cases hc : containsKey m input.outpoint.to_bytes = true
    · rw [if_pos hc]; exact ih _
    · have hc' : containsKey m input.outpoint.to_bytes = false := by
        simpa using hc
      rw [if_neg hc, removeKey_of_not_contains m _ hc']
      exact ih m

theorem containsKey_removeLoop_of_false (l : List TxInput) (m : UnspentIndex)
    (k : Key) (h : containsKey m k = false) :
    containsKey (removeLoop l m) k = false := by
  rw [removeLoop_eq_removeLoopU]
  induction l generalizing m with
  | nil => exact h
  | cons input rest ih =>
    exact ih _ (containsKey_removeKey_of_false m _ k h)

theorem KeysNodup_removeLoop (l : List TxInput) (m : UnspentIndex)
    (h : KeysNodup m) : KeysNodup (removeLoop l m) := by
  rw [removeLoop_eq_removeLoopU]
  induction l generalizing m with
  | nil => exact h
  | cons input rest ih => exact ih _ (KeysNodup_removeKey m _ h)

theorem findEntry_removeLoop_not_mem (l : List TxInput) (m : UnspentIndex)
    (k : Key) (h : ∀ input ∈ l, k ≠ input.outpoint.to_bytes) :
    findEntry (removeLoop l m) k = findEntry m k := by
  rw [removeLoop_eq_removeLoopU]
  induction l generalizing m with
  | nil => rfl
  | cons input rest ih =>
    rw [removeLoopU, ih _ (fun i hi => h i (List.mem_cons_of_mem input hi)),
      findEntry_removeKey_ne m _ k (h input (List.mem_cons_self input rest))]

theorem containsKey_removeLoop_iff (l : List TxInput) (m : UnspentIndex)
    (k : Key) (h : KeysNodup m) :
    containsKey (removeLoop l m) k = true ↔
      containsKey m k = true ∧
        k ∉ l.map (fun input => input.outpoint.to_bytes) := by
  rw [removeLoop_eq_removeLoopU]
  induction l generalizing m with
  | nil => simp [removeLoopU]
  | cons input rest ih =>
    rw [removeLoopU, ih _ (KeysNodup_removeKey m _ h), List.map_cons,
      List.mem_cons]
    by_cases hk : k = input.outpoint.to_bytes
    · rw [← hk, containsKey_removeKey_self m k h]
      simp [hk]
    · rw [containsKey_removeKey_ne m _ k hk]
      constructor
      · rintro ⟨h1, h2⟩
        exact ⟨h1, fun hh => hh.elim hk h2⟩
      · rintro ⟨h1, h2⟩
        exact ⟨h1, fun hh => h2 (Or.inr hh)⟩

theorem containsKey_removeLoop_of_spent (l : List TxInput) (m : UnspentIndex)
    (k : Key) (h : KeysNodup m)
    (hk : k ∈ l.map (fun input => input.outpoint.to_bytes)) :
    containsKey (removeLoop l m) k = false := by
  cases hc : containsKey (removeLoop l m) k with
  | false => rfl
  | true => exact absurd hk ((containsKey_removeLoop_iff l m k h).mp hc).2

theorem length_removeLoop_le (l : List TxInput) (m : UnspentIndex) :
    (removeLoop l m).length ≤ m.length := by
  rw [removeLoop_eq_removeLoopU]
  induction l generalizing m with
  | nil => exact Nat.le_refl _
  | cons input rest ih =>
    exact Nat.le_trans (ih _) (length_removeKey_le m _)

theorem length_le_length_removeLoop_add (l : List TxInput) (m : UnspentIndex) :
    m.length ≤ (removeLoop l m).length + l.length := by
  rw [removeLoop_eq_removeLoopU]
  induction l generalizing m with
  | nil => exact Nat.le_refl _
  | cons input rest ih =>
    have h1 := length_le_length_removeKey_succ m input.outpoint.to_bytes
    have h2 := ih (removeKey m input.outpoint.to_bytes)
    rw [removeLoopU, List.length_cons]
    omega

theorem removeLoop_of_all_absent (l : List TxInput) (m : UnspentIndex)
    (h : ∀ input ∈ l, containsKey m input.outpoint.to_bytes = false) :
    removeLoop l m = m := by
  induction l with
  | nil => rfl
  | cons input rest ih =>
    rw [removeLoop, if_neg (by simp [h input (List.mem_cons_self input rest)])]
    exact ih (fun i hi => h i (List.mem_cons_of_mem input hi))

/-! ### Lemmas about the insertion loop and outpoint keys -/

theorem containsKey_insertEntry_ne (m : UnspentIndex) (k k' : Key)
    (v : UnspentValue) (h : k' ≠ k) :
    containsKey (insertEntry m k v) k' = containsKey m k' := by
  rw [insertEntry, containsKey, if_neg (fun hh => h hh.symm),
    containsKey_removeKey_ne m k k' h]

theorem insertLoop_count (hash : List Nat) (bh i : Nat)
    (outs : List EvaluatedTxOut) (m : UnspentIndex) :
    (insertLoop hash bh i outs m).1 =
      outs.countP (fun output => output.script.address.isSome) := by
  induction outs generalizing i m with
  | nil => rfl
  | cons output rest ih =>
    rw [List.countP_cons]
    cases ha : output.script.address with
    | some a => simp [insertLoop, ha, ih]
    | none => simp [insertLoop, ha, ih]

theorem KeysNodup_insertLoop (hash : List Nat) (bh i : Nat)
    (outs : List EvaluatedTxOut) (m : UnspentIndex) (h : KeysNodup m) :
    KeysNodup (insertLoop hash bh i outs m).2 := by
  induction outs generalizing i m with
  | nil => exact h
  | cons output rest ih =>
    cases ha : output.script.address with
    | some a =>
      simp only [insertLoop, ha]
      exact ih (i + 1) _ (KeysNodup_insertEntry m _ _ h)
    | none =>
      simp only [insertLoop, ha]
      exact ih (i + 1) m h

theorem containsKey_insertLoop_iff (hash : List Nat) (bh i : Nat)
    (outs : List EvaluatedTxOut) (m : UnspentIndex) (k : Key) :
    containsKey (insertLoop hash bh i outs m).2 k = true ↔
      k ∈ regKeysFrom hash i outs ∨ containsKey m k = true := by
  induction outs generalizing i m with
  | nil => simp [insertLoop, regKeysFrom]
  | cons output rest ih =>
    cases ha : output.script.address with
    | some a =>
      simp only [insertLoop, ha, regKeysFrom, List.mem_cons]
      rw [ih, containsKey_insertEntry_iff]
      tauto
    | none =>
      simp only [insertLoop, ha, regKeysFrom]
      exact ih (i + 1) m

theorem findEntry_insertLoop_not_mem (hash : List Nat) (bh i : Nat)
    (outs : List EvaluatedTxOut) (m : UnspentIndex) (k : Key)
    (h : k ∉ regKeysFrom hash i outs) :
    findEntry (insertLoop hash bh i outs m).2 k = findEntry m k := by
  induction outs generalizing i m with
  | nil => rfl
  | cons output rest ih =>
    cases ha : output.script.address with
    | some a =>
      rw [regKeysFrom, ha] at h
      simp only [List.mem_cons, not_or] at h
      simp only [insertLoop, ha]
      rw [ih (i + 1) _ h.2, findEntry_insertEntry_ne m _ k _ h.1]
    | none =>
      rw [regKeysFrom, ha] at h
      simp only [insertLoop, ha]
      exact ih (i + 1) m h

theorem to_bytes_index_eq (hash : List Nat) (i j : Nat)
    (h : (TxOutpoint.new hash i).to_bytes = (TxOutpoint.new hash j).to_bytes) :
    i % 4294967296 = j % 4294967296 := by
  unfold TxOutpoint.new TxOutpoint.to_bytes at h
  simp only at h
  have h2 := List.append_inj_right h rfl
  simp only [List.cons.injEq, and_true] at h2
  omega

theorem to_bytes_ne_of_txid_ne (h1 h2 : List Nat) (i j : Nat)
    (hlen : h1.length = h2.length) (hne : h1 ≠ h2) :
    (TxOutpoint.new h1 i).to_bytes ≠ (TxOutpoint.new h2 j).to_bytes := by
  intro h
  unfold TxOutpoint.new TxOutpoint.to_bytes at h
  simp only at h
  exact hne (List.append_inj_left h hlen)

theorem mem_regKeysFrom_iff (hash : List Nat) (i : Nat)
    (outs : List EvaluatedTxOut) (k : Key) :
    k ∈ regKeysFrom hash i outs ↔
      ∃ j o, outs.get? j = some o ∧ o.script.address.isSome = true ∧
        k = (TxOutpoint.new hash (i + j)).to_bytes := by
  induction outs generalizing i with
  | nil => simp [regKeysFrom]
  | cons output rest ih =>
    cases ha : output.script.address with
    | some a =>
      simp only [regKeysFrom, ha, List.mem_cons]
      rw [ih]
      constructor
      · rintro (rfl | ⟨j, o, hj, hao, rfl⟩)
        · exact ⟨0, output, rfl, by simp [ha], by rw [Nat.add_zero]⟩
        · refine ⟨j + 1, o, by simpa using hj, hao, ?_⟩
          have e : i + 1 + j = i + (j + 1) := by omega
          rw [e]
      · rintro ⟨j, o, hj, hao, rfl⟩
        cases j with
        | zero =>
          obtain rfl : output = o := by simpa using hj
          rw [Nat.add_zero]
          exact Or.inl rfl
        | succ j' =>
          refine Or.inr ⟨j', o, by simpa using hj, hao, ?_⟩
          have e : i + (j' + 1) = i + 1 + j' := by omega
          rw [e]
    | none =>
      simp only [regKeysFrom, ha]
      rw [ih]
      constructor
      · rintro ⟨j, o, hj, hao, rfl⟩
        refine ⟨j + 1, o, by simpa using hj, hao, ?_⟩
        have e : i + 1 + j = i + (j + 1) := by omega
        rw [e]
      · rintro ⟨j, o, hj, hao, rfl⟩
        cases j with
        | zero =>
          obtain rfl : output = o := by simpa using hj
          rw [ha] at hao
          exact absurd hao (by simp)
        | succ j' =>
          refine ⟨j', o, by simpa using hj, hao, ?_⟩
          have e : i + (j' + 1) = i + 1 + j' := by omega
          rw [e]

theorem findEntry_insertLoop_reg (hash : List Nat) (bh : Nat)
    (outs : List EvaluatedTxOut) (i j : Nat) (o : EvaluatedTxOut) (a : String)
    (m : UnspentIndex) (hj : outs.get? j = some o)
    (ha : o.script.address = some a)
    (hnot : (TxOutpoint.new hash (i + j)).to_bytes ∉
      regKeysFrom hash (i + j + 1) (outs.drop (j + 1))) :
    findEntry (insertLoop hash bh i outs m).2
        ((TxOutpoint.new hash (i + j)).to_bytes) =
      some ⟨bh, o.out.value, a⟩ := by
  induction outs generalizing i j m with
  | nil => cases hj
  | cons output rest ih =>
    cases j with
    | zero =>
      obtain rfl : output = o := by simpa using hj
      have hnot' : (TxOutpoint.new hash i).to_bytes ∉
          regKeysFrom hash (i + 1) rest := fun hmem => hnot hmem
      have hres : findEntry (insertLoop hash bh i (output :: rest) m).2
          ((TxOutpoint.new hash i).to_bytes) =
            some ⟨bh, output.out.value, a⟩ := by
        simp only [insertLoop, ha]
        rw [findEntry_insertLoop_not_mem hash bh (i + 1) rest _ _ hnot']
        exact findEntry_insertEntry_self m _ _
      exact hres
    | succ j' =>
      have e : i + (j' + 1) = i + 1 + j' := by omega
      have hj' : rest.get? j' = some o := by simpa using hj
      have hdrop : (output :: rest).drop (j' + 1 + 1) = rest.drop (j' + 1) := by
        simp
      rw [e] at hnot ⊢
      rw [hdrop] at hnot
      cases hb : output.script.address with
      | some b =>
        simp only [insertLoop, hb]
        exact ih (i + 1) j' _ hj' hnot
      | none =>
        simp only [insertLoop, hb]
        exact ih (i + 1) j' m hj' hnot

theorem length_insertLoop (hash : List Nat) (bh i : Nat)
    (outs : List EvaluatedTxOut) (m : UnspentIndex)
    (hnd : (regKeysFrom hash i outs).Nodup)
    (hfresh : ∀ k ∈ regKeysFrom hash i outs, containsKey m k = false) :
    (insertLoop hash bh i outs m).2.length =
      m.length + outs.countP (fun output => output.script.address.isSome) := by
  induction outs generalizing i m with
  | nil => rfl
  | cons output rest ih =>
    rw [List.countP_cons]
    cases ha : output.script.address with
    | some a =>
      rw [regKeysFrom, ha] at hnd hfresh
      rw [List.nodup_cons] at hnd
      simp only [insertLoop, ha]
      have hhead := hfresh _ (List.mem_cons_self _ _)
      have hfresh2 : ∀ k ∈ regKeysFrom hash (i + 1) rest,
          containsKey (insertEntry m (TxOutpoint.new hash i).to_bytes
            ⟨bh, output.out.value, a⟩) k = false := by
        intro k hk
        rw [containsKey_insertEntry_ne m _ k _
          (fun he => hnd.1 (by rw [← he]; exact hk))]
        exact hfresh k (List.mem_cons_of_mem _ hk)
      rw [ih (i + 1) _ hnd.2 hfresh2,
        length_insertEntry_of_not_contains m _ _ hhead]
      simp [ha]
      omega
    | none =>
      rw [regKeysFrom, ha] at hnd hfresh
      simp only [insertLoop, ha]
      rw [ih (i + 1) m hnd hfresh]
      simp [ha]

theorem regKeysFrom_nodup (hash : List Nat) (i : Nat)
    (outs : List EvaluatedTxOut) (h : i + outs.length ≤ 4294967296) :
    (regKeysFrom hash i outs).Nodup := by
  induction outs generalizing i with
  | nil => exact List.nodup_nil
  | cons output rest ih =>
    have hrest : (regKeysFrom hash (i + 1) rest).Nodup := by
      apply ih
      rw [List.length_cons] at h
      omega
    cases ha : output.script.address with
    | some a =>
      rw [regKeysFrom, ha, List.nodup_cons]
      refine ⟨fun hmem => ?_, hrest⟩
      obtain ⟨j, o, hj, hao, hk⟩ := (mem_regKeysFrom_iff hash (i + 1) rest _).mp hmem
      have hjlt : j < rest.length := by
        rcases List.get?_eq_some.mp hj with ⟨hlt, _⟩
        exact hlt
      have := to_bytes_index_eq hash i (i + 1 + j) hk
      rw [List.length_cons] at h
      omega
    | none =>
      rw [regKeysFrom, ha]
      exact hrest

/-! ### Lemmas about replay -/

theorem KeysNodup_stepTx (m : UnspentIndex) (p : Hashed Tx × Nat)
    (h : KeysNodup m) : KeysNodup (stepTx m p) :=
  KeysNodup_insertLoop _ _ _ _ _ (KeysNodup_removeLoop _ _ h)

theorem KeysNodup_foldl_stepTx (txs : List (Hashed Tx × Nat))
    (m : UnspentIndex) (h : KeysNodup m) : KeysNodup (txs.foldl stepTx m) := by
  induction txs generalizing m with
  | nil => exact h
  | cons t rest ih => exact ih _ (KeysNodup_stepTx m t h)

theorem KeysNodup_replay (txs : List (Hashed Tx × Nat)) :
    KeysNodup (replay txs) :=
  KeysNodup_foldl_stepTx txs [] List.nodup_nil

theorem containsKey_stepTx_iff (m : UnspentIndex) (p : Hashed Tx × Nat)
    (k : Key) (h : KeysNodup m) :
    containsKey (stepTx m p) k = true ↔
      k ∈ regKeysOf p.1 ∨
        (containsKey m k = true ∧ k ∉ spentKeysOf p.1) := by
  unfold stepTx insert_unspents remove_unspents
  simp only
  rw [containsKey_insertLoop_iff, containsKey_removeLoop_iff _ _ _ h]
  rw [regKeysOf, spentKeysOf]

theorem replay_append_singleton (l : List (Hashed Tx × Nat))
    (t : Hashed Tx × Nat) : replay (l ++ [t]) = stepTx (replay l) t := by
  rw [replay, List.foldl_append]
  rfl

theorem ValidLedger_append_left (l : List (Hashed Tx × Nat))
    (t : Hashed Tx × Nat) (hv : ValidLedger (l ++ [t])) : ValidLedger l := by
  obtain ⟨hp, hd⟩ := hv
  rw [List.pairwise_append] at hp
  exact ⟨hp.1, fun p hpmem => hd p (List.mem_append_left _ hpmem)⟩

/-! ### Claim theorems -/

/-- C1: Replay invariant — starting from an empty index and processing any
prefix of transactions in ledger order (each by `remove_unspents` first,
then `insert_unspents` on the same transaction), the index contains exactly
those outpoint keys whose output was registered by an already-processed
transaction with a script resolving to a known address and that have not
been referenced by any already-processed transaction's inputs. Ledger order
is captured by `ValidLedger`: no input references an outpoint registered by
the same or a later transaction of the prefix. -/
theorem C1_replay_invariant (txs : List (Hashed Tx × Nat))
    (hv : ValidLedger txs) (k : Key) :
    containsKey (replay txs) k = true ↔
      ((∃ p ∈ txs, k ∈ regKeysOf p.1) ∧ ∀ p ∈ txs, k ∉ spentKeysOf p.1) := by
  induction txs using List.reverseRecOn with
  | nil => simp [replay, containsKey]
  | append_singleton l t ih =>
    have hvl : ValidLedger l := ValidLedger_append_left l t hv
    have hnd := KeysNodup_replay l
    rw [replay_append_singleton, containsKey_stepTx_iff _ _ _ hnd, ih hvl]
    obtain ⟨hp, hd⟩ := hv
    rw [List.pairwise_append] at hp
    constructor
    · rintro (hreg | ⟨⟨⟨q, hq, hqreg⟩, hall⟩, hns⟩)
      · refine ⟨⟨t, List.mem_append_right l (by simp), hreg⟩, ?_⟩
        intro p hpmem hk
        rcases List.mem_append.mp hpmem with hpl | hpt
        · exact hp.2.2 p hpl t (by simp) k hk hreg
        · have hpt' : p = t := by simpa using hpt
          subst hpt'
          exact hd p (List.mem_append_right l (by simp)) k hk hreg
      · refine ⟨⟨q, List.mem_append_left _ hq, hqreg⟩, ?_⟩
        intro p hpmem hk
        rcases List.mem_append.mp hpmem with hpl | hpt
        · exact hall p hpl hk
        · have hpt' : p = t := by simpa using hpt
          subst hpt'
          exact hns hk
    · rintro ⟨⟨q, hq, hqreg⟩, hall⟩
      rcases List.mem_append.mp hq with hql | hqt
      · right
        refine ⟨⟨⟨q, hql, hqreg⟩,
          fun p hpl => hall p (List.mem_append_left _ hpl)⟩, ?_⟩
        exact hall t (List.mem_append_right l (by simp))
      · left
        have hqt' : q = t := by simpa using hqt
        subst hqt'
        exact hqreg

theorem removeLoop_nil (l : List TxInput) : removeLoop l [] = [] := by
  induction l with
  | nil => rfl
  | cons input rest ih =>
    rw [removeLoop, if_neg (by simp [containsKey])]
    exact ih

theorem not_mem_regKeysFrom_drop (hash : List Nat)
    (outs : List EvaluatedTxOut) (j : Nat)
    (hlen : outs.length ≤ 4294967296) (hj : j < outs.length) :
    (TxOutpoint.new hash (0 + j)).to_bytes ∉
      regKeysFrom hash (0 + j + 1) (outs.drop (j + 1)) := by
  intro hmem
  obtain ⟨j2, o', hj2, hao, hk⟩ :=
    (mem_regKeysFrom_iff hash (0 + j + 1) (outs.drop (j + 1)) _).mp hmem
  have hj2lt : j2 < (outs.drop (j + 1)).length := by
    rcases List.get?_eq_some.mp hj2 with ⟨hlt, _⟩
    exact hlt
  rw [List.length_drop] at hj2lt
  have := to_bytes_index_eq hash (0 + j) (0 + j + 1 + j2) hk
  omega

/-- C2: For every transaction with N outputs of which exactly K resolve to a
known address, `insert_unspents` returns K and (for fresh outpoint keys)
grows the index by exactly K entries; an output whose script does not
resolve leaves the entry under its outpoint key exactly as it was before
the call. The freshness and output-count bounds rule out outpoint-key
collisions (`i as u32` truncation). -/
theorem C2_insert_unspents_count (tx : Hashed Tx) (bh : Nat)
    (m : UnspentIndex)
    (hlen : tx.value.outputs.length ≤ 4294967296)
    (hfresh : ∀ k ∈ regKeysOf tx, containsKey m k = false) :
    (insert_unspents tx bh m).1 =
        tx.value.outputs.countP (fun output => output.script.address.isSome) ∧
      (insert_unspents tx bh m).2.length =
        m.length +
          tx.value.outputs.countP
            (fun output => output.script.address.isSome) ∧
      ∀ i o, tx.value.outputs.get? i = some o → o.script.address = none →
        findEntry (insert_unspents tx bh m).2
            ((TxOutpoint.new tx.hash i).to_bytes) =
          findEntry m ((TxOutpoint.new tx.hash i).to_bytes) := by
  have hnd : (regKeysFrom tx.hash 0 tx.value.outputs).Nodup :=
    regKeysFrom_nodup tx.hash 0 _ (by omega)
  refine ⟨insertLoop_count _ _ _ _ _,
    length_insertLoop _ _ _ _ _ hnd hfresh, ?_⟩
  intro i o hi ha
  apply findEntry_insertLoop_not_mem
  intro hmem
  obtain ⟨j, o', hj, hao, hk⟩ :=
    (mem_regKeysFrom_iff tx.hash 0 tx.value.outputs _).mp hmem
  have hilt : i < tx.value.outputs.length := by
    rcases List.get?_eq_some.mp hi with ⟨hlt, _⟩
    exact hlt
  have hjlt : j < tx.value.outputs.length := by
    rcases List.get?_eq_some.mp hj with ⟨hlt, _⟩
    exact hlt
  have hij := to_bytes_index_eq tx.hash i (0 + j) hk
  have hij' : i = j := by omega
  subst hij'
  rw [hi] at hj
  obtain rfl : o = o' := by simpa using hj
  rw [ha] at hao
  exact absurd hao (by simp)

/-- C3: For every transaction with M inputs, `remove_unspents` removes at
most M entries from the index and returns M, independent of how many
removals occurred and of the index contents. The hypothesis records the
decoder invariant that the declared input count equals the input-list
length. -/
theorem C3_remove_unspents_count (tx : Hashed Tx) (m m' : UnspentIndex)
    (hwf : tx.value.in_count = tx.value.inputs.length) :
    (remove_unspents tx m).1 = tx.value.inputs.length ∧
      (remove_unspents tx m).2.length ≤ m.length ∧
      m.length ≤ (remove_unspents tx m).2.length + tx.value.inputs.length ∧
      (remove_unspents tx m).1 = (remove_unspents tx m').1 :=
  ⟨hwf, length_removeLoop_le _ _, length_le_length_removeLoop_add _ _, rfl⟩

/-- C10: The guarded removal in `remove_unspents` (`contains_key` check
before `remove`) is observationally equivalent to an unconditional `remove`
for each input's outpoint key: same final index, same return value. -/
theorem C10_guard_refinement (tx : Hashed Tx) (m : UnspentIndex) :
    remove_unspents tx m = remove_unspents_unconditional tx m := by
  unfold remove_unspents remove_unspents_unconditional
  rw [removeLoop_eq_removeLoopU]

/-- C4: Key agreement — the outpoint key built by `insert_unspents` for
output index `i` of a transaction with hash `H`
(`TxOutpoint::new(H, i).to_bytes()`) equals the key built by
`remove_unspents` for an input whose referenced outpoint is `(H, i)`
(`input.outpoint.to_bytes()`); consequently an output registered by one
call is found in the index and removed by a later spend of the same
outpoint. -/
theorem C4_key_agreement (H : List Nat) (i : Nat) (tx1 tx2 : Hashed Tx)
    (bh : Nat) (m : UnspentIndex) (inp : TxInput) (o : EvaluatedTxOut)
    (a : String) (hnd : KeysNodup m) (hhash : tx1.hash = H)
    (hi : tx1.value.outputs.get? i = some o)
    (ha : o.script.address = some a)
    (hinp : inp ∈ tx2.value.inputs)
    (hout : inp.outpoint = TxOutpoint.new H i) :
    inp.outpoint.to_bytes = (TxOutpoint.new H i).to_bytes ∧
      containsKey (insert_unspents tx1 bh m).2
          ((TxOutpoint.new H i).to_bytes) = true ∧
      containsKey (remove_unspents tx2 (insert_unspents tx1 bh m).2).2
          ((TxOutpoint.new H i).to_bytes) = false := by
  have hmem : (TxOutpoint.new H i).to_bytes ∈
      regKeysFrom tx1.hash 0 tx1.value.outputs := by
    apply (mem_regKeysFrom_iff tx1.hash 0 tx1.value.outputs _).mpr
    exact ⟨i, o, hi, by rw [ha]; rfl, by rw [hhash, Nat.zero_add]⟩
  refine ⟨by rw [hout], ?_, ?_⟩
  · exact (containsKey_insertLoop_iff _ _ _ _ _ _).mpr (Or.inl hmem)
  · apply containsKey_removeLoop_of_spent
    · exact KeysNodup_insertLoop _ _ _ _ _ hnd
    · exact List.mem_map.mpr ⟨inp, hinp, by rw [hout]⟩

/-- C5: Idempotence of removal — calling `remove_unspents` twice in
succession with the same transaction leaves the index exactly as one call
does, and both calls return the same value (the whole result pairs are
equal). -/
theorem C5_remove_idempotent (tx : Hashed Tx) (m : UnspentIndex)
    (hnd : KeysNodup m) :
    remove_unspents tx (remove_unspents tx m).2 = remove_unspents tx m := by
  unfold remove_unspents
  simp only [Prod.mk.injEq, true_and]
  apply removeLoop_of_all_absent
  intro input hinp
  apply containsKey_removeLoop_of_spent _ _ _ hnd
  exact List.mem_map.mpr ⟨input, hinp, rfl⟩

/-- C6: Dangling-spend tolerance — an input whose referenced outpoint key
is absent from the index is a best-effort no-op: the guarded per-input
removal leaves the map untouched, the key stays absent after the whole
call, and the call still returns the declared input count (it never signals
an error). -/
theorem C6_dangling_spend (tx : Hashed Tx) (m : UnspentIndex)
    (inp : TxInput) (hinp : inp ∈ tx.value.inputs)
    (habs : containsKey m inp.outpoint.to_bytes = false) :
    (if containsKey m inp.outpoint.to_bytes then
        removeKey m inp.outpoint.to_bytes
      else m) = m ∧
      findEntry (remove_unspents tx m).2 inp.outpoint.to_bytes =
        findEntry m inp.outpoint.to_bytes ∧
      findEntry m inp.outpoint.to_bytes = none ∧
      (remove_unspents tx m).1 = tx.value.in_count := by
  have hnone : findEntry m inp.outpoint.to_bytes = none :=
    (containsKey_eq_false_iff m _).mp habs
  refine ⟨by rw [if_neg (by simp [habs])], ?_, hnone, rfl⟩
  have hafter : containsKey (removeLoop tx.value.inputs m)
      inp.outpoint.to_bytes = false :=
    containsKey_removeLoop_of_false _ m _ habs
  rw [remove_unspents]
  rw [(containsKey_eq_false_iff _ _).mp hafter, hnone]

/-- C7: Silent overwrite on key collision — if the index already holds an
entry under the outpoint key of a resolving output, `insert_unspents`
replaces it with the new `UnspentValue` (new block height, value, address),
still counts the output in the returned total, and produces no collision
signal (the function is total). -/
theorem C7_silent_overwrite (tx : Hashed Tx) (bh : Nat) (m : UnspentIndex)
    (j : Nat) (o : EvaluatedTxOut) (a : String) (old : UnspentValue)
    (hlen : tx.value.outputs.length ≤ 4294967296)
    (hj : tx.value.outputs.get? j = some o)
    (ha : o.script.address = some a)
    (hold : findEntry m ((TxOutpoint.new tx.hash j).to_bytes) = some old) :
    findEntry (insert_unspents tx bh m).2
        ((TxOutpoint.new tx.hash j).to_bytes) =
      some ⟨bh, o.out.value, a⟩ ∧
      (insert_unspents tx bh m).1 =
        tx.value.outputs.countP
          (fun output => output.script.address.isSome) := by
  refine ⟨?_, insertLoop_count _ _ _ _ _⟩
  have hjlt : j < tx.value.outputs.length := by
    rcases List.get?_eq_some.mp hj with ⟨hlt, _⟩
    exact hlt
  have e : (TxOutpoint.new tx.hash j).to_bytes
      = (TxOutpoint.new tx.hash (0 + j)).to_bytes := by rw [Nat.zero_add]
  rw [e]
  exact findEntry_insertLoop_reg tx.hash bh tx.value.outputs 0 j o a m hj ha
    (not_mem_regKeysFrom_drop tx.hash tx.value.outputs j hlen hjlt)

/-- C8: End-to-end scenario — from an empty index, registering a
transaction whose output 0 pays 556000000 to
"1JqDybm2nWTENrHvMyafbSXXtTk5Uv5QAn" at height 100000 makes the outpoint
key map to that entry; replaying a later transaction that spends that
outpoint and creates output 0 of 9070000000 to
"1EYXXHs5gV4pc7QAddmDj5z7m14QPHGvWL" at height 105001 leaves the original
key absent and maps the new output-0 key to the new entry. -/
theorem C8_end_to_end (tx1 tx2 : Hashed Tx) (o1 o2 : EvaluatedTxOut)
    (hh1 : tx1.hash.length = 32) (hh2 : tx2.hash.length = 32)
    (hne : tx1.hash ≠ tx2.hash)
    (hl1 : tx1.value.outputs.length ≤ 4294967296)
    (hl2 : tx2.value.outputs.length ≤ 4294967296)
    (ho1 : tx1.value.outputs.get? 0 = some o1)
    (ha1 : o1.script.address = some "1JqDybm2nWTENrHvMyafbSXXtTk5Uv5QAn")
    (hv1 : o1.out.value = 556000000)
    (ho2 : tx2.value.outputs.get? 0 = some o2)
    (ha2 : o2.script.address = some "1EYXXHs5gV4pc7QAddmDj5z7m14QPHGvWL")
    (hv2 : o2.out.value = 9070000000)
    (hsp : ∃ inp ∈ tx2.value.inputs,
      inp.outpoint = TxOutpoint.new tx1.hash 0) :
    findEntry (replay [(tx1, 100000)])
        ((TxOutpoint.new tx1.hash 0).to_bytes) =
      some ⟨100000, 556000000, "1JqDybm2nWTENrHvMyafbSXXtTk5Uv5QAn"⟩ ∧
      findEntry (replay [(tx1, 100000), (tx2, 105001)])
          ((TxOutpoint.new tx1.hash 0).to_bytes) = none ∧
      findEntry (replay [(tx1, 100000), (tx2, 105001)])
          ((TxOutpoint.new tx2.hash 0).to_bytes) =
        some ⟨105001, 9070000000, "1EYXXHs5gV4pc7QAddmDj5z7m14QPHGvWL"⟩ := by
  have h1lt : 0 < tx1.value.outputs.length := by
    rcases List.get?_eq_some.mp ho1 with ⟨hlt, _⟩
    exact hlt
  have h2lt : 0 < tx2.value.outputs.length := by
    rcases List.get?_eq_some.mp ho2 with ⟨hlt, _⟩
    exact hlt
  have hm0 : (remove_unspents tx1 ([] : UnspentIndex)).2 = [] :=
    removeLoop_nil _
  have hrep1 : replay [(tx1, 100000)] =
      (insert_unspents tx1 100000 ([] : UnspentIndex)).2 := by
    show stepTx [] (tx1, 100000) = _
    rw [stepTx, hm0]
  have hk1 : findEntry (insert_unspents tx1 100000 ([] : UnspentIndex)).2
      ((TxOutpoint.new tx1.hash 0).to_bytes) =
      some ⟨100000, o1.out.value, "1JqDybm2nWTENrHvMyafbSXXtTk5Uv5QAn"⟩ :=
    findEntry_insertLoop_reg tx1.hash 100000 tx1.value.outputs 0 0 o1 _ []
      ho1 ha1 (not_mem_regKeysFrom_drop tx1.hash _ 0 hl1 h1lt)
  rw [hv1] at hk1
  have hnd1 : KeysNodup (replay [(tx1, 100000)]) := KeysNodup_replay _
  have hrep2 : replay [(tx1, 100000), (tx2, 105001)] =
      stepTx (replay [(tx1, 100000)]) (tx2, 105001) := rfl
  have habs : containsKey
      (stepTx (replay [(tx1, 100000)]) (tx2, 105001))
      ((TxOutpoint.new tx1.hash 0).to_bytes) = false := by
    cases hc : containsKey (stepTx (replay [(tx1, 100000)]) (tx2, 105001))
        ((TxOutpoint.new tx1.hash 0).to_bytes) with
    | false => rfl
    | true =>
      rcases (containsKey_stepTx_iff _ (tx2, 105001) _ hnd1).mp hc with
        hreg | ⟨_, hns⟩
      · obtain ⟨j, o', hj, hao, hk⟩ :=
          (mem_regKeysFrom_iff _ _ _ _).mp hreg
        exact absurd hk
          (to_bytes_ne_of_txid_ne tx1.hash tx2.hash 0 (0 + j)
            (by rw [hh1, hh2]) hne)
      · obtain ⟨inp, hinp, hout⟩ := hsp
        exact absurd (List.mem_map.mpr ⟨inp, hinp, by rw [hout]⟩) hns
  have hk2 : findEntry
      (insert_unspents tx2 105001
        (remove_unspents tx2 (replay [(tx1, 100000)])).2).2
      ((TxOutpoint.new tx2.hash 0).to_bytes) =
      some ⟨105001, o2.out.value, "1EYXXHs5gV4pc7QAddmDj5z7m14QPHGvWL"⟩ :=
    findEntry_insertLoop_reg tx2.hash 105001 tx2.value.outputs 0 0 o2 _ _
      ho2 ha2 (not_mem_regKeysFrom_drop tx2.hash _ 0 hl2 h2lt)
  rw [hv2] at hk2
  refine ⟨by rw [hrep1]; exact hk1, ?_, ?_⟩
  · rw [hrep2]
    exact (containsKey_eq_false_iff _ _).mp habs
  · rw [hrep2]
    exact hk2

/-- C9: Frame property — `remove_unspents` never inserts or modifies an
entry: every key different from all input outpoint keys keeps exactly its
entry; `insert_unspents` never removes an entry: every key different from
`TxOutpoint::new(tx.hash, i).to_bytes()` for all resolving output indices
`i` keeps exactly its entry. -/
theorem C9_frame (tx : Hashed Tx) (bh : Nat) (m : UnspentIndex) (k : Key) :
    ((∀ inp ∈ tx.value.inputs, k ≠ inp.outpoint.to_bytes) →
        findEntry (remove_unspents tx m).2 k = findEntry m k) ∧
      ((∀ i o, tx.value.outputs.get? i = some o →
            o.script.address.isSome = true →
            k ≠ (TxOutpoint.new tx.hash i).to_bytes) →
        findEntry (insert_unspents tx bh m).2 k = findEntry m k) := by
  constructor
  · exact fun h => findEntry_removeLoop_not_mem _ _ _ h
  · intro h
    apply findEntry_insertLoop_not_mem
    intro hmem
    obtain ⟨j, o, hj, hao, hk⟩ := (mem_regKeysFrom_iff _ _ _ _).mp hmem
    rw [Nat.zero_add] at hk
    exact h j o hj hao hk

/-! ### Witnesses: the claim theorems applied at concrete inputs -/

/-- Witness for C1: the demo ledger is a valid ledger, and the invariant
settles membership of the second transaction's output-0 key. -/
theorem C1_replay_invariant_witness :
    containsKey (replay demoLedger)
      ((TxOutpoint.new demoHash2 0).to_bytes) = true :=
  (C1_replay_invariant demoLedger (by decide) _).mpr (by decide)

/-- Witness for C2 at the first demo transaction against the empty index. -/
theorem C2_insert_unspents_count_witness :
    (insert_unspents demoTx1 100000 ([] : UnspentIndex)).1 =
        demoTx1.value.outputs.countP
          (fun output => output.script.address.isSome) ∧
      (insert_unspents demoTx1 100000 ([] : UnspentIndex)).2.length =
        ([] : UnspentIndex).length +
          demoTx1.value.outputs.countP
            (fun output => output.script.address.isSome) ∧
      ∀ i o, demoTx1.value.outputs.get? i = some o →
        o.script.address = none →
        findEntry (insert_unspents demoTx1 100000 ([] : UnspentIndex)).2
            ((TxOutpoint.new demoTx1.hash i).to_bytes) =
          findEntry ([] : UnspentIndex)
            ((TxOutpoint.new demoTx1.hash i).to_bytes) :=
  C2_insert_unspents_count demoTx1 100000 [] (by decide) (by decide)

/-- Witness for C3 at the second demo transaction and the one-entry map. -/
theorem C3_remove_unspents_count_witness :
    (remove_unspents demoTx2 demoMap).1 = demoTx2.value.inputs.length ∧
      (remove_unspents demoTx2 demoMap).2.length ≤ demoMap.length ∧
      demoMap.length ≤ (remove_unspents demoTx2 demoMap).2.length +
        demoTx2.value.inputs.length ∧
      (remove_unspents demoTx2 demoMap).1 =
        (remove_unspents demoTx2 ([] : UnspentIndex)).1 :=
  C3_remove_unspents_count demoTx2 demoMap [] (by decide)

/-- Witness for C4 at the demo transactions: tx2's input references output
0 of tx1, and the key registered for it is found and then removed. -/
theorem C4_key_agreement_witness :
    (⟨⟨demoHash1, 0⟩⟩ : TxInput).outpoint.to_bytes =
        (TxOutpoint.new demoHash1 0).to_bytes ∧
      containsKey (insert_unspents demoTx1 100000 ([] : UnspentIndex)).2
          ((TxOutpoint.new demoHash1 0).to_bytes) = true ∧
      containsKey (remove_unspents demoTx2
            (insert_unspents demoTx1 100000 ([] : UnspentIndex)).2).2
          ((TxOutpoint.new demoHash1 0).to_bytes) = false :=
  C4_key_agreement demoHash1 0 demoTx1 demoTx2 100000 [] ⟨⟨demoHash1, 0⟩⟩
    demoOut1 "1JqDybm2nWTENrHvMyafbSXXtTk5Uv5QAn" List.nodup_nil rfl rfl rfl
    (by decide) rfl

/-- Witness for C5 at the second demo transaction and the one-entry map. -/
theorem C5_remove_idempotent_witness :
    remove_unspents demoTx2 (remove_unspents demoTx2 demoMap).2 =
      remove_unspents demoTx2 demoMap :=
  C5_remove_idempotent demoTx2 demoMap (by unfold KeysNodup; decide)

/-- Witness for C6: the first demo transaction's input references a key
outside the one-entry map, and its removal is a silent no-op. -/
theorem C6_dangling_spend_witness :
    (if containsKey demoMap
          (⟨⟨demoHash9, 0⟩⟩ : TxInput).outpoint.to_bytes then
        removeKey demoMap (⟨⟨demoHash9, 0⟩⟩ : TxInput).outpoint.to_bytes
      else demoMap) = demoMap ∧
      findEntry (remove_unspents demoTx1 demoMap).2
          (⟨⟨demoHash9, 0⟩⟩ : TxInput).outpoint.to_bytes =
        findEntry demoMap (⟨⟨demoHash9, 0⟩⟩ : TxInput).outpoint.to_bytes ∧
      findEntry demoMap
        (⟨⟨demoHash9, 0⟩⟩ : TxInput).outpoint.to_bytes = none ∧
      (remove_unspents demoTx1 demoMap).1 = demoTx1.value.in_count :=
  C6_dangling_spend demoTx1 demoMap ⟨⟨demoHash9, 0⟩⟩ (by decide) (by decide)

/-- Witness for C7: re-registering output 0 of the first demo transaction
at a later height overwrites the existing entry under the same key. -/
theorem C7_silent_overwrite_witness :
    findEntry (insert_unspents demoTx1 200000 demoMap).2
        ((TxOutpoint.new demoTx1.hash 0).to_bytes) =
      some ⟨200000, demoOut1.out.value,
        "1JqDybm2nWTENrHvMyafbSXXtTk5Uv5QAn"⟩ ∧
      (insert_unspents demoTx1 200000 demoMap).1 =
        demoTx1.value.outputs.countP
          (fun output => output.script.address.isSome) :=
  C7_silent_overwrite demoTx1 200000 demoMap 0 demoOut1
    "1JqDybm2nWTENrHvMyafbSXXtTk5Uv5QAn" demoEntry (by decide) rfl rfl
    (by decide)

/-- Witness for C8 at the two demo transactions. -/
theorem C8_end_to_end_witness :
    findEntry (replay [(demoTx1, 100000)])
        ((TxOutpoint.new demoTx1.hash 0).to_bytes) =
      some ⟨100000, 556000000, "1JqDybm2nWTENrHvMyafbSXXtTk5Uv5QAn"⟩ ∧
      findEntry (replay [(demoTx1, 100000), (demoTx2, 105001)])
          ((TxOutpoint.new demoTx1.hash 0).to_bytes) = none ∧
      findEntry (replay [(demoTx1, 100000), (demoTx2, 105001)])
          ((TxOutpoint.new demoTx2.hash 0).to_bytes) =
        some ⟨105001, 9070000000, "1EYXXHs5gV4pc7QAddmDj5z7m14QPHGvWL"⟩ :=
  C8_end_to_end demoTx1 demoTx2 demoOut1 demoOut2 (by decide) (by decide)
    (by decide) (by decide) (by decide) rfl rfl rfl rfl rfl rfl (by decide)

/-- Witness for C9: a key untouched by the second demo transaction keeps
its entry across both operations. -/
theorem C9_frame_witness :
    findEntry (remove_unspents demoTx2 demoMap).2 demoKeyOther =
        findEntry demoMap demoKeyOther ∧
      findEntry (insert_unspents demoTx2 105001 demoMap).2 demoKeyOther =
        findEntry demoMap demoKeyOther :=
  ⟨(C9_frame demoTx2 105001 demoMap demoKeyOther).1 (by decide),
    (C9_frame demoTx2 105001 demoMap demoKeyOther).2 (by
      intro i o hi hao
      have hilt : i < demoTx2.value.outputs.length := by
        rcases List.get?_eq_some.mp hi with ⟨hlt, _⟩
        exact hlt
      have hi0 : i = 0 := by
        have hlen1 : demoTx2.value.outputs.length = 1 := rfl
        omega
      subst hi0
      obtain rfl : demoOut2 = o :=
        Option.some_inj.mp (hi : some demoOut2 = some o)
      decide)⟩
